import Mathlib

/-!
# Verification of the german-law-diff text-synopsis engine

Shallow embedding of the synopsis pipeline of `app.py`:

* the renderer `generate_synopsis_html` (escaping, annotation wrapping,
  per-operation routing) and the request handler `get_synopsis_api` are
  translated directly from the source;
* the diff engine (`diff_match_patch.diff_main` / `diff_cleanupSemantic`) is an
  external library whose code is not part of the repository, so it is modelled
  from the specification: a minimal character-level edit script computed by the
  standard LCS / edit-graph recurrence, followed by a semantic-cleanup pass that
  merges adjacent same-tag operations and eliminates short equalities that sit
  between larger edits, re-absorbing them into the surrounding operations.

Texts are sequences of characters (`List Char`).
-/

/-- The tag of an edit operation: the library's `DIFF_EQUAL`, `DIFF_DELETE`,
`DIFF_INSERT`. -/
inductive Tag where
  | equal : Tag
  | delete : Tag
  | insert : Tag
deriving DecidableEq, Repr

/-- One edit operation: a tag together with the contiguous span of text it
carries (the `(op, data)` pairs of the library's diff list). -/
structure Op where
  tag : Tag
  text : List Char
deriving DecidableEq, Repr

/-- Old-side contribution of a single operation: `Equal` and `Delete` spans
carry old text, `Insert` spans do not. -/
def opOld (op : Op) : List Char :=
  match op.tag with
  | Tag.insert => []
  | _ => op.text

/-- New-side contribution of a single operation: `Equal` and `Insert` spans
carry new text, `Delete` spans do not. -/
def opNew (op : Op) : List Char :=
  match op.tag with
  | Tag.delete => []
  | _ => op.text

/-- Concatenation of the old-side contributions of a script, in order. -/
def oldSide : List Op → List Char
  | [] => []
  | op :: rest => opOld op ++ oldSide rest

/-- Concatenation of the new-side contributions of a script, in order. -/
def newSide : List Op → List Char
  | [] => []
  | op :: rest => opNew op ++ newSide rest

/-- Total number of characters carried by `Delete` and `Insert` operations of a
script (the script's edit cost in characters). -/
def editedChars : List Op → Nat
  | [] => 0
  | op :: rest => (if op.tag = Tag.equal then 0 else op.text.length) + editedChars rest

/-- Total number of `Delete` and `Insert` operations of a script. -/
def numEditOps : List Op → Nat
  | [] => 0
  | op :: rest => (if op.tag = Tag.equal then 0 else 1) + numEditOps rest

/-- Modelled from the spec: the character-level edit distance (insertions and
deletions only, the LCS edit-graph distance of §4.1), written with explicit
fuel so that it is structurally recursive; `fuel = 0` is never reached when the
fuel is at least the sum of the lengths, and the fallback value there is the
length sum. -/
def distF : Nat → List Char → List Char → Nat
  | 0, xs, ys => xs.length + ys.length
  | Nat.succ f, xs, ys =>
    match xs, ys with
    | [], ys => ys.length
    | xs, [] => xs.length
    | x :: xs, y :: ys =>
      if x = y then distF f xs ys
      else 1 + min (distF f xs (y :: ys)) (distF f (x :: xs) ys)

/-- Modelled from the spec: the character-level edit distance between two
texts. -/
def editDist (xs ys : List Char) : Nat := distF (xs.length + ys.length) xs ys

/-- Modelled from the spec: phase 1 of the diff engine (`diff_main` of the
external `diff_match_patch` library, which is not part of the repository).
Computes a minimal sequence of Equal/Delete/Insert operations transforming the
old text into the new one by the LCS / edit-graph recurrence, emitting
per-character operations (phase 2 merges adjacent same-tag operations into
spans).  Ties between a deletion step and an insertion step are broken in
favour of the deletion (a deterministic, documented tie-break, per §9).  Fuel
makes the recursion structural; with fuel above the length sum the fallback is
never reached. -/
def diffF : Nat → List Char → List Char → List Op
  | 0, _, _ => []
  | Nat.succ f, xs, ys =>
    match xs, ys with
    | [], ys => if ys = [] then [] else [⟨Tag.insert, ys⟩]
    | xs, [] => [⟨Tag.delete, xs⟩]
    | x :: xs, y :: ys =>
      if x = y then ⟨Tag.equal, [x]⟩ :: diffF f xs ys
      else if distF f xs (y :: ys) ≤ distF f (x :: xs) ys then
        ⟨Tag.delete, [x]⟩ :: diffF f xs (y :: ys)
      else
        ⟨Tag.insert, [y]⟩ :: diffF f (x :: xs) ys

/-- Modelled from the spec: `dmp.diff_main old_text new_text`, the shortest
edit script phase of the diff engine. -/
def diff_main (xs ys : List Char) : List Op := diffF (xs.length + ys.length + 1) xs ys

/-- Prepend an equality span to a script, merging it with a leading equality
if there is one (used by the merge pass so that no two adjacent operations
share a tag). -/
def consEq (t : List Char) (ops : List Op) : List Op :=
  match ops with
  | [] => [⟨Tag.equal, t⟩]
  | op :: rest =>
    if op.tag = Tag.equal then ⟨Tag.equal, t ++ op.text⟩ :: rest
    else ⟨Tag.equal, t⟩ :: op :: rest

/-- Emit the pending deleted and inserted text of a change block, deletions
before insertions, skipping empty spans. -/
def flushDI (d i : List Char) : List Op :=
  (if d = [] then [] else [⟨Tag.delete, d⟩]) ++ (if i = [] then [] else [⟨Tag.insert, i⟩])

/-- Modelled from the spec: the merge pass of the semantic cleanup.  Walks the
script accumulating the deleted text `d` and inserted text `i` of the current
change block; a nonempty equality flushes the block and is merged with any
equality that follows.  Adjacent same-tag operations are thereby merged and
empty operations dropped. -/
def mergeGo : List Char → List Char → List Op → List Op
  | d, i, [] => flushDI d i
  | d, i, ⟨Tag.delete, t⟩ :: rest => mergeGo (d ++ t) i rest
  | d, i, ⟨Tag.insert, t⟩ :: rest => mergeGo d (i ++ t) rest
  | d, i, ⟨Tag.equal, t⟩ :: rest =>
    if t = [] then mergeGo d i rest
    else flushDI d i ++ consEq t (mergeGo [] [] rest)

/-- Modelled from the spec: merge directly adjacent operations of the same tag
into one. -/
def mergeOps (ops : List Op) : List Op := mergeGo [] [] ops

/-- Length of the largest single edit span in the change block that starts the
given script (zero when the script starts with an equality or is empty). -/
def nextEditMax : List Op → Nat
  | [] => 0
  | op :: rest => if op.tag = Tag.equal then 0 else max op.text.length (nextEditMax rest)

/-- Modelled from the spec: the noise-elimination pass of the semantic cleanup.
An equality that is no longer than the largest edit span on each side of it is
"noise": it is eliminated and its text re-absorbed into both the surrounding
deletion and the surrounding insertion (this is what turns
`Delete "s", Insert "r", Equal "a", Delete "t", Insert "n"` into
`Delete "sat", Insert "ran"` in the spec's worked example).  `d` and `i`
accumulate the deleted/inserted text of the current change block. -/
def elimGo : List Char → List Char → List Op → List Op
  | d, i, [] => flushDI d i
  | d, i, ⟨Tag.delete, t⟩ :: rest => elimGo (d ++ t) i rest
  | d, i, ⟨Tag.insert, t⟩ :: rest => elimGo d (i ++ t) rest
  | d, i, ⟨Tag.equal, t⟩ :: rest =>
    if t.length ≤ max d.length i.length ∧ t.length ≤ nextEditMax rest then
      elimGo (d ++ t) (i ++ t) rest
    else
      flushDI d i ++ ⟨Tag.equal, t⟩ :: elimGo [] [] rest

/-- Modelled from the spec: `dmp.diff_cleanupSemantic diffs`, phase 2 of the
diff engine: merge adjacent same-tag operations, eliminate noise equalities
between larger edits, and merge again. -/
def diff_cleanupSemantic (ops : List Op) : List Op := mergeOps (elimGo [] [] (mergeOps ops))

/-- Replace every occurrence of the character `c` by the string `r`; Python's
`str.replace` restricted to a single-character pattern, as used in
`generate_synopsis_html`. -/
def replaceChar (c : Char) (r : List Char) : List Char → List Char
  | [] => []
  | x :: rest => (if x = c then r else [x]) ++ replaceChar c r rest

/-- The renderer's per-fragment escape-and-normalize step, translated from
`app.py`:
`data.replace("&", "&amp;").replace("<", "&lt;").replace(">", "&gt;").replace("\n", "<br>")`. -/
def safeData (s : List Char) : List Char :=
  replaceChar '\n' ("<br>".data)
    (replaceChar '>' ("&gt;".data)
      (replaceChar '<' ("&lt;".data)
        (replaceChar '&' ("&amp;".data) s)))

/-- The "deleted" annotation wrapper of the renderer:
`f'<span class="diff-deleted">{safe_data}</span>'`. -/
def spanDeleted (s : List Char) : List Char :=
  "<span class=\"diff-deleted\">".data ++ s ++ "</span>".data

/-- The "inserted" annotation wrapper of the renderer:
`f'<span class="diff-inserted">{safe_data}</span>'`. -/
def spanInserted (s : List Char) : List Char :=
  "<span class=\"diff-inserted\">".data ++ s ++ "</span>".data

/-- The dictionary returned by `generate_synopsis_html`. -/
structure SynopsisHtml where
  old_version_html : List Char
  new_version_html : List Char
deriving DecidableEq, Repr

/-- The renderer loop of `generate_synopsis_html`, translated from the source:
`old_html` and `new_html` accumulate left to right; a `Delete` appends its
wrapped escaped text to the old stream only, an `Insert` to the new stream
only, an `Equal` appends its escaped text to both. -/
def renderGo : List Char → List Char → List Op → SynopsisHtml
  | o, n, [] => ⟨o, n⟩
  | o, n, op :: rest =>
    match op.tag with
    | Tag.delete => renderGo (o ++ spanDeleted (safeData op.text)) n rest
    | Tag.insert => renderGo o (n ++ spanInserted (safeData op.text)) rest
    | Tag.equal => renderGo (o ++ safeData op.text) (n ++ safeData op.text) rest

/-- `generate_synopsis_html old_text new_text`, translated from the source:
run the diff engine, clean it up semantically, and render the script into the
two annotated output streams. -/
def generate_synopsis_html (old_text new_text : List Char) : SynopsisHtml :=
  renderGo [] [] (diff_cleanupSemantic (diff_main old_text new_text))

/-! ## Fuel stability of the edit-distance recursion -/

theorem distF_nil_left (f : Nat) (ys : List Char) : distF f [] ys = ys.length := by
  cases f <;> simp [distF]

theorem distF_nil_right (f : Nat) (xs : List Char) : distF f xs [] = xs.length := by
  cases f <;> cases xs <;> simp [distF]

theorem distF_cons (f : Nat) (x y : Char) (xs ys : List Char) :
    distF (Nat.succ f) (x :: xs) (y :: ys) =
      if x = y then distF f xs ys
      else 1 + min (distF f xs (y :: ys)) (distF f (x :: xs) ys) := rfl

theorem distF_stable : ∀ f g xs ys, xs.length + ys.length ≤ f →
    xs.length + ys.length ≤ g → distF f xs ys = distF g xs ys := by
  intro f
  induction f with
  | zero =>
    intro g xs ys hf _
    have hx : xs = [] := List.length_eq_zero.mp (by omega)
    have hy : ys = [] := List.length_eq_zero.mp (by omega)
    subst hx; subst hy
    simp [distF_nil_left]
  | succ f ih =>
    intro g xs ys hf hg
    cases xs with
    | nil => simp [distF_nil_left]
    | cons x xs =>
      cases ys with
      | nil => simp [distF_nil_right]
      | cons y ys =>
        cases g with
        | zero => simp at hg
        | succ g =>
          simp only [List.length_cons] at hf hg
          rw [distF_cons, distF_cons]
          by_cases h : x = y
          · simp only [h, if_pos rfl]
            exact ih g xs ys (by omega) (by omega)
          · simp only [if_neg h]
            rw [ih g xs (y :: ys) (by simp only [List.length_cons]; omega)
                (by simp only [List.length_cons]; omega),
              ih g (x :: xs) ys (by simp only [List.length_cons]; omega)
                (by simp only [List.length_cons]; omega)]

theorem distF_eq_editDist (f : Nat) (xs ys : List Char) (h : xs.length + ys.length ≤ f) :
    distF f xs ys = editDist xs ys :=
  distF_stable f (xs.length + ys.length) xs ys h le_rfl

theorem editDist_nil_left (ys : List Char) : editDist [] ys = ys.length := by
  simp [editDist, distF_nil_left]

theorem editDist_nil_right (xs : List Char) : editDist xs [] = xs.length := by
  simp [editDist, distF_nil_right]

theorem editDist_cons_cons (x y : Char) (xs ys : List Char) :
    editDist (x :: xs) (y :: ys) =
      if x = y then editDist xs ys
      else 1 + min (editDist xs (y :: ys)) (editDist (x :: xs) ys) := by
  show distF (Nat.succ (xs.length + 1 + ys.length)) (x :: xs) (y :: ys) = _
  rw [distF_cons]
  by_cases h : x = y
  · rw [if_pos h, if_pos h, distF_eq_editDist _ _ _ (by omega)]
  · rw [if_neg h, if_neg h,
      distF_eq_editDist _ _ _ (by simp only [List.length_cons]; omega),
      distF_eq_editDist _ _ _ (by simp only [List.length_cons]; omega)]

/-! ## Properties of the raw edit script -/

theorem diffF_nil_left (f : Nat) (ys : List Char) :
    diffF (Nat.succ f) [] ys = if ys = [] then [] else [⟨Tag.insert, ys⟩] := by
  cases ys <;> rfl

theorem diffF_cons_nil (f : Nat) (x : Char) (xs : List Char) :
    diffF (Nat.succ f) (x :: xs) [] = [⟨Tag.delete, x :: xs⟩] := rfl

theorem diffF_cons_cons (f : Nat) (x y : Char) (xs ys : List Char) :
    diffF (Nat.succ f) (x :: xs) (y :: ys) =
      if x = y then ⟨Tag.equal, [x]⟩ :: diffF f xs ys
      else if distF f xs (y :: ys) ≤ distF f (x :: xs) ys then
        ⟨Tag.delete, [x]⟩ :: diffF f xs (y :: ys)
      else
        ⟨Tag.insert, [y]⟩ :: diffF f (x :: xs) ys := rfl

theorem oldSide_diffF : ∀ f xs ys, xs.length + ys.length < f →
    oldSide (diffF f xs ys) = xs := by
  intro f
  induction f with
  | zero => intro xs ys h; exact absurd h (Nat.not_lt_zero _)
  | succ f ih =>
    intro xs ys h
    cases xs with
    | nil => cases ys <;> simp [diffF_nil_left, oldSide, opOld]
    | cons x xs =>
      cases ys with
      | nil => simp [diffF_cons_nil, oldSide, opOld]
      | cons y ys =>
        simp only [List.length_cons] at h
        rw [diffF_cons_cons]
        by_cases hxy : x = y
        · simp only [if_pos hxy]
          simp [oldSide, opOld, ih xs ys (by omega)]
        · simp only [if_neg hxy]
          by_cases hd : distF f xs (y :: ys) ≤ distF f (x :: xs) ys
          · simp only [if_pos hd]
            simp [oldSide, opOld, ih xs (y :: ys) (by simp only [List.length_cons]; omega)]
          · simp only [if_neg hd]
            simp [oldSide, opOld, ih (x :: xs) ys (by simp only [List.length_cons]; omega)]

theorem newSide_diffF : ∀ f xs ys, xs.length + ys.length < f →
    newSide (diffF f xs ys) = ys := by
  intro f
  induction f with
  | zero => intro xs ys h; exact absurd h (Nat.not_lt_zero _)
  | succ f ih =>
    intro xs ys h
    cases xs with
    | nil => cases ys <;> simp [diffF_nil_left, newSide, opNew]
    | cons x xs =>
      cases ys with
      | nil => simp [diffF_cons_nil, newSide, opNew]
      | cons y ys =>
        simp only [List.length_cons] at h
        rw [diffF_cons_cons]
        by_cases hxy : x = y
        · simp only [if_pos hxy]
          simp [newSide, opNew, ih xs ys (by omega), hxy]
        · simp only [if_neg hxy]
          by_cases hd : distF f xs (y :: ys) ≤ distF f (x :: xs) ys
          · simp only [if_pos hd]
            simp [newSide, opNew, ih xs (y :: ys) (by simp only [List.length_cons]; omega)]
          · simp only [if_neg hd]
            simp [newSide, opNew, ih (x :: xs) ys (by simp only [List.length_cons]; omega)]

theorem editedChars_diffF : ∀ f xs ys, xs.length + ys.length < f →
    editedChars (diffF f xs ys) = editDist xs ys := by
  intro f
  induction f with
  | zero => intro xs ys h; exact absurd h (Nat.not_lt_zero _)
  | succ f ih =>
    intro xs ys h
    cases xs with
    | nil =>
      cases ys with
      | nil => simp [diffF_nil_left, editedChars, editDist_nil_left]
      | cons y ys => simp [diffF_nil_left, editedChars, editDist_nil_left]
    | cons x xs =>
      cases ys with
      | nil => simp [diffF_cons_nil, editedChars, editDist_nil_right]
      | cons y ys =>
        simp only [List.length_cons] at h
        rw [diffF_cons_cons, editDist_cons_cons]
        by_cases hxy : x = y
        · simp only [if_pos hxy]
          simp [editedChars, ih xs ys (by omega)]
        · simp only [if_neg hxy]
          have h1 : distF f xs (y :: ys) = editDist xs (y :: ys) :=
            distF_eq_editDist _ _ _ (by simp only [List.length_cons]; omega)
          have h2 : distF f (x :: xs) ys = editDist (x :: xs) ys :=
            distF_eq_editDist _ _ _ (by simp only [List.length_cons]; omega)
          rw [h1, h2]
          by_cases hd : editDist xs (y :: ys) ≤ editDist (x :: xs) ys
          · simp only [if_pos hd]
            simp [editedChars, ih xs (y :: ys) (by simp only [List.length_cons]; omega),
              min_eq_left hd]
          · simp only [if_neg hd]
            simp [editedChars, ih (x :: xs) ys (by simp only [List.length_cons]; omega),
              min_eq_right (le_of_not_le hd)]

theorem diffF_text_ne_nil : ∀ f xs ys op, op ∈ diffF f xs ys → op.text ≠ [] := by
  intro f
  induction f with
  | zero => intro xs ys op h; simp [diffF] at h
  | succ f ih =>
    intro xs ys op h
    cases xs with
    | nil =>
      cases ys with
      | nil => simp [diffF_nil_left] at h
      | cons y ys =>
        simp [diffF_nil_left] at h
        simp [h]
    | cons x xs =>
      cases ys with
      | nil =>
        simp [diffF_cons_nil] at h
        simp [h]
      | cons y ys =>
        rw [diffF_cons_cons] at h
        by_cases hxy : x = y
        · rw [if_pos hxy] at h
          rcases List.mem_cons.mp h with h | h
          · simp [h]
          · exact ih _ _ _ h
        · rw [if_neg hxy] at h
          by_cases hd : distF f xs (y :: ys) ≤ distF f (x :: xs) ys
          · rw [if_pos hd] at h
            rcases List.mem_cons.mp h with h | h
            · simp [h]
            · exact ih _ _ _ h
          · rw [if_neg hd] at h
            rcases List.mem_cons.mp h with h | h
            · simp [h]
            · exact ih _ _ _ h

theorem diffF_self : ∀ f s, 2 * s.length < f →
    diffF f s s = s.map (fun c => (⟨Tag.equal, [c]⟩ : Op)) := by
  intro f
  induction f with
  | zero => intro s h; exact absurd h (Nat.not_lt_zero _)
  | succ f ih =>
    intro s h
    cases s with
    | nil => simp [diffF_nil_left]
    | cons c s =>
      simp only [List.length_cons] at h
      rw [diffF_cons_cons, if_pos rfl, List.map_cons, ih s (by omega)]

theorem oldSide_diff_main (xs ys : List Char) : oldSide (diff_main xs ys) = xs :=
  oldSide_diffF _ _ _ (by omega)

theorem newSide_diff_main (xs ys : List Char) : newSide (diff_main xs ys) = ys :=
  newSide_diffF _ _ _ (by omega)

theorem editedChars_diff_main (xs ys : List Char) :
    editedChars (diff_main xs ys) = editDist xs ys :=
  editedChars_diffF _ _ _ (by omega)

theorem diff_main_text_ne_nil (xs ys : List Char) (op : Op) (h : op ∈ diff_main xs ys) :
    op.text ≠ [] :=
  diffF_text_ne_nil _ _ _ _ h

theorem diff_main_self (s : List Char) :
    diff_main s s = s.map (fun c => (⟨Tag.equal, [c]⟩ : Op)) :=
  diffF_self _ _ (by omega)

/-! ## The cleanup pass preserves both sides of the script -/

theorem oldSide_append (a b : List Op) : oldSide (a ++ b) = oldSide a ++ oldSide b := by
  induction a with
  | nil => simp [oldSide]
  | cons op rest ih => simp [oldSide, ih, List.append_assoc]

theorem newSide_append (a b : List Op) : newSide (a ++ b) = newSide a ++ newSide b := by
  induction a with
  | nil => simp [newSide]
  | cons op rest ih => simp [newSide, ih, List.append_assoc]

theorem oldSide_flushDI (d i : List Char) : oldSide (flushDI d i) = d := by
  by_cases hd : d = [] <;> by_cases hi : i = [] <;>
    simp [flushDI, hd, hi, oldSide, opOld]

theorem newSide_flushDI (d i : List Char) : newSide (flushDI d i) = i := by
  by_cases hd : d = [] <;> by_cases hi : i = [] <;>
    simp [flushDI, hd, hi, newSide, opNew]

theorem oldSide_consEq (t : List Char) (ops : List Op) :
    oldSide (consEq t ops) = t ++ oldSide ops := by
  cases ops with
  | nil => simp [consEq, oldSide, opOld]
  | cons op rest =>
    by_cases h : op.tag = Tag.equal
    · simp [consEq, h, oldSide, opOld, List.append_assoc]
    · simp [consEq, h, oldSide, opOld]

theorem newSide_consEq (t : List Char) (ops : List Op) :
    newSide (consEq t ops) = t ++ newSide ops := by
  cases ops with
  | nil => simp [consEq, newSide, opNew]
  | cons op rest =>
    by_cases h : op.tag = Tag.equal
    · simp [consEq, h, newSide, opNew, List.append_assoc]
    · simp [consEq, h, newSide, opNew]

theorem oldSide_mergeGo : ∀ l d i, oldSide (mergeGo d i l) = d ++ oldSide l := by
  intro l
  induction l with
  | nil => intro d i; simp [mergeGo, oldSide_flushDI, oldSide]
  | cons op rest ih =>
    intro d i
    rcases op with ⟨tag, t⟩
    cases tag with
    | equal =>
      by_cases ht : t = []
      · simp [mergeGo, ht, ih, oldSide, opOld]
      · rw [show mergeGo d i (⟨Tag.equal, t⟩ :: rest) =
            flushDI d i ++ consEq t (mergeGo [] [] rest) from by simp [mergeGo, ht]]
        rw [oldSide_append, oldSide_flushDI, oldSide_consEq, ih]
        simp [oldSide, opOld]
    | delete => simp [mergeGo, ih, oldSide, opOld, List.append_assoc]
    | insert => simp [mergeGo, ih, oldSide, opOld]

theorem newSide_mergeGo : ∀ l d i, newSide (mergeGo d i l) = i ++ newSide l := by
  intro l
  induction l with
  | nil => intro d i; simp [mergeGo, newSide_flushDI, newSide]
  | cons op rest ih =>
    intro d i
    rcases op with ⟨tag, t⟩
    cases tag with
    | equal =>
      by_cases ht : t = []
      · simp [mergeGo, ht, ih, newSide, opNew]
      · rw [show mergeGo d i (⟨Tag.equal, t⟩ :: rest) =
            flushDI d i ++ consEq t (mergeGo [] [] rest) from by simp [mergeGo, ht]]
        rw [newSide_append, newSide_flushDI, newSide_consEq, ih]
        simp [newSide, opNew]
    | delete => simp [mergeGo, ih, newSide, opNew]
    | insert => simp [mergeGo, ih, newSide, opNew, List.append_assoc]

theorem oldSide_elimGo : ∀ l d i, oldSide (elimGo d i l) = d ++ oldSide l := by
  intro l
  induction l with
  | nil => intro d i; simp [elimGo, oldSide_flushDI, oldSide]
  | cons op rest ih =>
    intro d i
    rcases op with ⟨tag, t⟩
    cases tag with
    | equal =>
      by_cases hc : t.length ≤ max d.length i.length ∧ t.length ≤ nextEditMax rest
      · rw [show elimGo d i (⟨Tag.equal, t⟩ :: rest) = elimGo (d ++ t) (i ++ t) rest from by
          simp [elimGo, hc]]
        rw [ih]
        simp [oldSide, opOld, List.append_assoc]
      · rw [show elimGo d i (⟨Tag.equal, t⟩ :: rest) =
            flushDI d i ++ ⟨Tag.equal, t⟩ :: elimGo [] [] rest from by
          simp only [elimGo]; rw [if_neg hc]]
        rw [oldSide_append, oldSide_flushDI]
        simp [oldSide, opOld, ih]
    | delete => simp [elimGo, ih, oldSide, opOld, List.append_assoc]
    | insert => simp [elimGo, ih, oldSide, opOld]

theorem newSide_elimGo : ∀ l d i, newSide (elimGo d i l) = i ++ newSide l := by
  intro l
  induction l with
  | nil => intro d i; simp [elimGo, newSide_flushDI, newSide]
  | cons op rest ih =>
    intro d i
    rcases op with ⟨tag, t⟩
    cases tag with
    | equal =>
      by_cases hc : t.length ≤ max d.length i.length ∧ t.length ≤ nextEditMax rest
      · rw [show elimGo d i (⟨Tag.equal, t⟩ :: rest) = elimGo (d ++ t) (i ++ t) rest from by
          simp [elimGo, hc]]
        rw [ih]
        simp [newSide, opNew, List.append_assoc]
      · rw [show elimGo d i (⟨Tag.equal, t⟩ :: rest) =
            flushDI d i ++ ⟨Tag.equal, t⟩ :: elimGo [] [] rest from by
          simp only [elimGo]; rw [if_neg hc]]
        rw [newSide_append, newSide_flushDI]
        simp [newSide, opNew, ih]
    | delete => simp [elimGo, ih, newSide, opNew]
    | insert => simp [elimGo, ih, newSide, opNew, List.append_assoc]

theorem oldSide_cleanup (ops : List Op) :
    oldSide (diff_cleanupSemantic ops) = oldSide ops := by
  simp [diff_cleanupSemantic, mergeOps, oldSide_mergeGo, oldSide_elimGo]

theorem newSide_cleanup (ops : List Op) :
    newSide (diff_cleanupSemantic ops) = newSide ops := by
  simp [diff_cleanupSemantic, mergeOps, newSide_mergeGo, newSide_elimGo]

/-! ## After the merge pass no two adjacent operations share a tag -/

theorem chain_flushDI (d i : List Char) :
    List.Chain' (fun a b : Op => a.tag ≠ b.tag) (flushDI d i) := by
  by_cases hd : d = [] <;> by_cases hi : i = [] <;>
    simp [flushDI, hd, hi, List.chain'_singleton, List.chain'_cons]

theorem flushDI_getLast_tag (d i : List Char) :
    ∀ op ∈ (flushDI d i).getLast?, op.tag ≠ Tag.equal := by
  by_cases hd : d = [] <;> by_cases hi : i = [] <;>
    simp [flushDI, hd, hi]

theorem consEq_head_tag (t : List Char) (ops : List Op) :
    ∀ op ∈ (consEq t ops).head?, op.tag = Tag.equal := by
  cases ops with
  | nil => simp [consEq]
  | cons op rest =>
    by_cases h : op.tag = Tag.equal <;> simp [consEq, h]

theorem chain_consEq (t : List Char) (ops : List Op)
    (h : List.Chain' (fun a b : Op => a.tag ≠ b.tag) ops) :
    List.Chain' (fun a b : Op => a.tag ≠ b.tag) (consEq t ops) := by
  cases ops with
  | nil => simp [consEq, List.chain'_singleton]
  | cons op rest =>
    rcases List.chain'_cons'.mp h with ⟨hhead, htail⟩
    by_cases he : op.tag = Tag.equal
    · rw [show consEq t (op :: rest) = ⟨Tag.equal, t ++ op.text⟩ :: rest from by
        simp [consEq, he]]
      refine List.chain'_cons'.mpr ⟨?_, htail⟩
      intro b hb
      have := hhead b hb
      simp only at this ⊢
      rw [← he]
      exact this
    · rw [show consEq t (op :: rest) = ⟨Tag.equal, t⟩ :: op :: rest from by
        simp [consEq, he]]
      refine List.chain'_cons'.mpr ⟨?_, h⟩
      intro b hb
      simp only [List.head?_cons, Option.mem_def, Option.some.injEq] at hb
      subst hb
      simp only
      exact fun h' => he h'.symm

theorem chain_mergeGo : ∀ l d i,
    List.Chain' (fun a b : Op => a.tag ≠ b.tag) (mergeGo d i l) := by
  intro l
  induction l with
  | nil => intro d i; exact chain_flushDI d i
  | cons op rest ih =>
    intro d i
    rcases op with ⟨tag, t⟩
    cases tag with
    | equal =>
      by_cases ht : t = []
      · simpa [mergeGo, ht] using ih d i
      · rw [show mergeGo d i (⟨Tag.equal, t⟩ :: rest) =
            flushDI d i ++ consEq t (mergeGo [] [] rest) from by simp [mergeGo, ht]]
        refine List.Chain'.append (chain_flushDI d i)
          (chain_consEq t (mergeGo [] [] rest) (ih [] [])) ?_
        intro x hx y hy
        have h1 := flushDI_getLast_tag d i x hx
        have h2 := consEq_head_tag t (mergeGo [] [] rest) y hy
        show x.tag ≠ y.tag
        rw [h2]
        exact h1
    | delete => simpa [mergeGo] using ih (d ++ t) i
    | insert => simpa [mergeGo] using ih d (i ++ t)

theorem chain_cleanup (ops : List Op) :
    List.Chain' (fun a b : Op => a.tag ≠ b.tag) (diff_cleanupSemantic ops) :=
  chain_mergeGo _ [] []

/-! ## The cleanup pass never increases the number of edit operations -/

/-- `1` when the pending span is nonempty (it will flush as one operation),
`0` otherwise. -/
def ep (x : List Char) : Nat := if x = [] then 0 else 1

theorem numEditOps_append (a b : List Op) :
    numEditOps (a ++ b) = numEditOps a + numEditOps b := by
  induction a with
  | nil => simp [numEditOps]
  | cons op rest ih => simp [numEditOps, ih]; omega

theorem numEditOps_flushDI (d i : List Char) :
    numEditOps (flushDI d i) = ep d + ep i := by
  by_cases hd : d = [] <;> by_cases hi : i = [] <;>
    simp [flushDI, hd, hi, ep, numEditOps]

theorem numEditOps_consEq (t : List Char) (ops : List Op) :
    numEditOps (consEq t ops) = numEditOps ops := by
  cases ops with
  | nil => simp [consEq, numEditOps]
  | cons op rest =>
    by_cases h : op.tag = Tag.equal <;> simp [consEq, h, numEditOps]

theorem ep_append_le (d t : List Char) : ep (d ++ t) ≤ ep d + 1 := by
  by_cases hd : d = [] <;> simp [ep, hd]
  split <;> omega

theorem ep_le_one (d : List Char) : ep d ≤ 1 := by
  by_cases hd : d = [] <;> simp [ep, hd]

theorem numEditOps_mergeGo : ∀ l d i,
    numEditOps (mergeGo d i l) ≤ ep d + ep i + numEditOps l := by
  intro l
  induction l with
  | nil =>
    intro d i
    simp [mergeGo, numEditOps_flushDI, numEditOps]
  | cons op rest ih =>
    intro d i
    rcases op with ⟨tag, t⟩
    cases tag with
    | delete =>
      have h := ih (d ++ t) i
      have h2 := ep_append_le d t
      simp only [mergeGo, numEditOps] at h ⊢
      simp only [show (Tag.delete = Tag.equal) = False from by simp, if_false]
      omega
    | insert =>
      have h := ih d (i ++ t)
      have h2 := ep_append_le i t
      simp only [mergeGo, numEditOps] at h ⊢
      simp only [show (Tag.insert = Tag.equal) = False from by simp, if_false]
      omega
    | equal =>
      have e1 : numEditOps (⟨Tag.equal, t⟩ :: rest) = numEditOps rest := by simp [numEditOps]
      by_cases ht : t = []
      · have h := ih d i
        rw [show mergeGo d i (⟨Tag.equal, t⟩ :: rest) = mergeGo d i rest from by
          simp [mergeGo, ht], e1]
        omega
      · rw [show mergeGo d i (⟨Tag.equal, t⟩ :: rest) =
            flushDI d i ++ consEq t (mergeGo [] [] rest) from by simp [mergeGo, ht]]
        rw [numEditOps_append, numEditOps_flushDI, numEditOps_consEq, e1]
        have h := ih [] []
        have e2 : ep ([] : List Char) = 0 := rfl
        rw [e2] at h
        omega

theorem nextEditMax_cases (l : List Op) (h : 0 < nextEditMax l) :
    ∃ op rest, l = op :: rest ∧ op.tag ≠ Tag.equal := by
  cases l with
  | nil => simp [nextEditMax] at h
  | cons op rest =>
    by_cases he : op.tag = Tag.equal
    · simp [nextEditMax, he] at h
    · exact ⟨op, rest, rfl, he⟩

theorem numEditOps_elimGo : ∀ n l, l.length ≤ n → ∀ d i,
    numEditOps (elimGo d i l) ≤ ep d + ep i + numEditOps l := by
  intro n
  induction n with
  | zero =>
    intro l hl d i
    have hnil : l = [] := List.length_eq_zero.mp (by omega)
    subst hnil
    simp [elimGo, numEditOps_flushDI, numEditOps]
  | succ n ih =>
    intro l hl d i
    cases l with
    | nil => simp [elimGo, numEditOps_flushDI, numEditOps]
    | cons op rest =>
      rcases op with ⟨tag, t⟩
      simp only [List.length_cons] at hl
      cases tag with
      | delete =>
        have h := ih rest (by omega) (d ++ t) i
        have h2 := ep_append_le d t
        have e1 : numEditOps (⟨Tag.delete, t⟩ :: rest) = 1 + numEditOps rest := by
          simp [numEditOps]
        rw [show elimGo d i (⟨Tag.delete, t⟩ :: rest) = elimGo (d ++ t) i rest from by
          simp [elimGo], e1]
        omega
      | insert =>
        have h := ih rest (by omega) d (i ++ t)
        have h2 := ep_append_le i t
        have e1 : numEditOps (⟨Tag.insert, t⟩ :: rest) = 1 + numEditOps rest := by
          simp [numEditOps]
        rw [show elimGo d i (⟨Tag.insert, t⟩ :: rest) = elimGo d (i ++ t) rest from by
          simp [elimGo], e1]
        omega
      | equal =>
        have e1 : numEditOps (⟨Tag.equal, t⟩ :: rest) = numEditOps rest := by
          simp [numEditOps]
        by_cases hc : t.length ≤ max d.length i.length ∧ t.length ≤ nextEditMax rest
        · rw [show elimGo d i (⟨Tag.equal, t⟩ :: rest) = elimGo (d ++ t) (i ++ t) rest from by
            simp [elimGo, hc], e1]
          by_cases ht : t = []
          · subst ht
            rw [List.append_nil, List.append_nil]
            have h := ih rest (by omega) d i
            omega
          · have htlen : 0 < t.length := List.length_pos.mpr ht
            have hpos : 0 < nextEditMax rest := lt_of_lt_of_le htlen hc.2
            have hdi : 1 ≤ ep d + ep i := by
              have hmax : 0 < max d.length i.length := lt_of_lt_of_le htlen hc.1
              rcases lt_max_iff.mp hmax with h | h
              · have hd := List.length_pos.mp h
                simp [ep, hd]
              · have hi := List.length_pos.mp h
                by_cases hd : d = [] <;> simp [ep, hd, hi]
            obtain ⟨op2, rest2, rfl, hop2⟩ := nextEditMax_cases rest hpos
            simp only [List.length_cons] at hl
            rcases op2 with ⟨tag2, t2⟩
            cases tag2 with
            | equal => exact absurd rfl hop2
            | delete =>
              have h := ih rest2 (by omega) ((d ++ t) ++ t2) (i ++ t)
              have f1 := ep_le_one ((d ++ t) ++ t2)
              have f2 := ep_le_one (i ++ t)
              have e2 : numEditOps (⟨Tag.delete, t2⟩ :: rest2) = 1 + numEditOps rest2 := by
                simp [numEditOps]
              rw [show elimGo (d ++ t) (i ++ t) (⟨Tag.delete, t2⟩ :: rest2) =
                  elimGo ((d ++ t) ++ t2) (i ++ t) rest2 from by simp [elimGo], e2]
              omega
            | insert =>
              have h := ih rest2 (by omega) (d ++ t) ((i ++ t) ++ t2)
              have f1 := ep_le_one (d ++ t)
              have f2 := ep_le_one ((i ++ t) ++ t2)
              have e2 : numEditOps (⟨Tag.insert, t2⟩ :: rest2) = 1 + numEditOps rest2 := by
                simp [numEditOps]
              rw [show elimGo (d ++ t) (i ++ t) (⟨Tag.insert, t2⟩ :: rest2) =
                  elimGo (d ++ t) ((i ++ t) ++ t2) rest2 from by simp [elimGo], e2]
              omega
        · rw [show elimGo d i (⟨Tag.equal, t⟩ :: rest) =
              flushDI d i ++ ⟨Tag.equal, t⟩ :: elimGo [] [] rest from by
            simp only [elimGo]; rw [if_neg hc], numEditOps_append, numEditOps_flushDI, e1]
          have h := ih rest (by omega) [] []
          have e3 : numEditOps (⟨Tag.equal, t⟩ :: elimGo [] [] rest) =
              numEditOps (elimGo [] [] rest) := by simp [numEditOps]
          have e4 : ep ([] : List Char) = 0 := rfl
          rw [e3]
          rw [e4] at h
          omega

theorem numEditOps_le_editedChars (ops : List Op) (h : ∀ op ∈ ops, op.text ≠ []) :
    numEditOps ops ≤ editedChars ops := by
  induction ops with
  | nil => simp [numEditOps, editedChars]
  | cons op rest ih =>
    have hrest := ih (fun op' h' => h op' (List.mem_cons_of_mem _ h'))
    by_cases he : op.tag = Tag.equal
    · simp only [numEditOps, editedChars, if_pos he]
      omega
    · have hne := h op (List.mem_cons_self _ _)
      have hlen : 1 ≤ op.text.length := List.length_pos.mpr hne
      simp only [numEditOps, editedChars, if_neg he]
      omega

theorem numEditOps_cleanup_le_editDist (xs ys : List Char) :
    numEditOps (diff_cleanupSemantic (diff_main xs ys)) ≤ editDist xs ys := by
  have h0 : numEditOps (diff_main xs ys) ≤ editedChars (diff_main xs ys) :=
    numEditOps_le_editedChars _ (fun op h => diff_main_text_ne_nil xs ys op h)
  have h1 := numEditOps_mergeGo (diff_main xs ys) [] []
  have h2 := numEditOps_elimGo (mergeGo [] [] (diff_main xs ys)).length
    (mergeGo [] [] (diff_main xs ys)) le_rfl [] []
  have h3 := numEditOps_mergeGo (elimGo [] [] (mergeGo [] [] (diff_main xs ys))) [] []
  have h4 := editedChars_diff_main xs ys
  have e : ep ([] : List Char) = 0 := rfl
  rw [e] at h1 h2 h3
  simp only [diff_cleanupSemantic, mergeOps]
  omega

/-! ## Identity and emptiness through the full pipeline -/

theorem mergeGo_map_eq : ∀ s : List Char, s ≠ [] →
    mergeGo [] [] (s.map fun c => (⟨Tag.equal, [c]⟩ : Op)) = [⟨Tag.equal, s⟩] := by
  intro s
  induction s with
  | nil => intro h; exact absurd rfl h
  | cons c s ih =>
    intro _
    rw [List.map_cons]
    rw [show mergeGo [] [] (⟨Tag.equal, [c]⟩ :: s.map fun c => (⟨Tag.equal, [c]⟩ : Op)) =
        flushDI [] [] ++ consEq [c] (mergeGo [] [] (s.map fun c => (⟨Tag.equal, [c]⟩ : Op)))
        from by simp [mergeGo]]
    cases s with
    | nil => simp [mergeGo, flushDI, consEq]
    | cons c2 s2 =>
      rw [ih (by simp)]
      simp [flushDI, consEq]

theorem cleanup_diff_main_self (s : List Char) (h : s ≠ []) :
    diff_cleanupSemantic (diff_main s s) = [⟨Tag.equal, s⟩] := by
  simp only [diff_cleanupSemantic, mergeOps]
  rw [diff_main_self, mergeGo_map_eq s h]
  have hc : ¬((⟨Tag.equal, s⟩ : Op).text.length ≤
      max ([] : List Char).length ([] : List Char).length ∧
      (⟨Tag.equal, s⟩ : Op).text.length ≤ nextEditMax []) := by
    intro hcon
    rcases hcon with ⟨h1, _⟩
    simp at h1
    exact h h1
  rw [show elimGo [] [] [⟨Tag.equal, s⟩] = [⟨Tag.equal, s⟩] from by
    simp only [elimGo]
    rw [if_neg hc]
    simp [elimGo, flushDI]]
  simp [mergeGo, h, consEq, flushDI]

theorem cleanup_diff_main_eq_nil (o n : List Char)
    (h : diff_cleanupSemantic (diff_main o n) = []) : o = [] ∧ n = [] := by
  constructor
  · rw [← oldSide_diff_main o n, ← oldSide_cleanup, h]
    rfl
  · rw [← newSide_diff_main o n, ← newSide_cleanup, h]
    rfl

/-! ## Renderer routing -/

/-- What one operation contributes to the old output stream, following the
spec's routing description: `Equal` passes its escaped text through, `Delete`
wraps it in the "deleted" annotation, `Insert` contributes nothing. -/
def opOldHtml (op : Op) : List Char :=
  match op.tag with
  | Tag.equal => safeData op.text
  | Tag.delete => spanDeleted (safeData op.text)
  | Tag.insert => []

/-- What one operation contributes to the new output stream, following the
spec's routing description: `Equal` passes its escaped text through, `Insert`
wraps it in the "inserted" annotation, `Delete` contributes nothing. -/
def opNewHtml (op : Op) : List Char :=
  match op.tag with
  | Tag.equal => safeData op.text
  | Tag.delete => []
  | Tag.insert => spanInserted (safeData op.text)

/-- Concatenation of the per-operation old-stream contributions, in order. -/
def oldStream : List Op → List Char
  | [] => []
  | op :: rest => opOldHtml op ++ oldStream rest

/-- Concatenation of the per-operation new-stream contributions, in order. -/
def newStream : List Op → List Char
  | [] => []
  | op :: rest => opNewHtml op ++ newStream rest

theorem renderGo_acc : ∀ ops o n,
    renderGo o n ops = ⟨o ++ oldStream ops, n ++ newStream ops⟩ := by
  intro ops
  induction ops with
  | nil => intro o n; simp [renderGo, oldStream, newStream]
  | cons op rest ih =>
    intro o n
    rcases op with ⟨tag, t⟩
    cases tag with
    | equal =>
      simp only [renderGo, ih]
      simp [oldStream, newStream, opOldHtml, opNewHtml, List.append_assoc]
    | delete =>
      simp only [renderGo, ih]
      simp [oldStream, newStream, opOldHtml, opNewHtml, List.append_assoc]
    | insert =>
      simp only [renderGo, ih]
      simp [oldStream, newStream, opOldHtml, opNewHtml, List.append_assoc]

theorem renderGo_streams (ops : List Op) :
    renderGo [] [] ops = ⟨oldStream ops, newStream ops⟩ := by
  rw [renderGo_acc]
  simp

/-! ## The escape step, character by character -/

/-- The code that the escape-and-normalize step emits for one character. -/
def escCode (c : Char) : List Char :=
  if c = '&' then "&amp;".data
  else if c = '<' then "&lt;".data
  else if c = '>' then "&gt;".data
  else if c = '\n' then "<br>".data
  else [c]

theorem replaceChar_append (c : Char) (r a b : List Char) :
    replaceChar c r (a ++ b) = replaceChar c r a ++ replaceChar c r b := by
  induction a with
  | nil => simp [replaceChar]
  | cons x rest ih => simp [replaceChar, ih, List.append_assoc]

theorem safeData_nil : safeData [] = [] := rfl

theorem safeData_cons (c : Char) (t : List Char) :
    safeData (c :: t) = escCode c ++ safeData t := by
  show safeData ([c] ++ t) = escCode c ++ safeData t
  simp only [safeData, replaceChar_append]
  congr 1
  by_cases h1 : c = '&'
  · subst h1; rfl
  · by_cases h2 : c = '<'
    · subst h2; rfl
    · by_cases h3 : c = '>'
      · subst h3; rfl
      · by_cases h4 : c = '\n'
        · subst h4; rfl
        · simp [escCode, h1, h2, h3, h4, replaceChar]

/-! ## Stripping the annotation wrappers and undoing the escaping -/

/-- `leadsWith pat l` tests whether `l` starts with the token `pat`
(recursion is on the token, so it evaluates as soon as the input exposes
enough leading characters). -/
def leadsWith : List Char → List Char → Bool
  | [], _ => true
  | p :: ps, l =>
    match l with
    | [] => false
    | c :: cs => (p == c) && leadsWith ps cs

/-- Decode one escape code after a leading `&`: the remainder of the input
after the `&` is matched against the three code tails, giving the decoded
character and the rest of the input. -/
def ampTok (r : List Char) : Option (Char × List Char) :=
  if leadsWith "amp;".data r then some ('&', r.drop 4)
  else if leadsWith "lt;".data r then some ('<', r.drop 3)
  else if leadsWith "gt;".data r then some ('>', r.drop 3)
  else none

/-- Decode one markup token after a leading `<`: either the `<br>` line-break
marker (decoded to a newline) or one of the three annotation-wrapper tokens
(decoded to nothing), giving the rest of the input. -/
def ltTok (r : List Char) : Option (Option Char × List Char) :=
  if leadsWith "br>".data r then some (some '\n', r.drop 3)
  else if leadsWith "/span>".data r then some (none, r.drop 6)
  else if leadsWith "span class=\"diff-deleted\">".data r then some (none, r.drop 26)
  else if leadsWith "span class=\"diff-inserted\">".data r then some (none, r.drop 27)
  else none

/-- Fuelled scanner that strips the annotation wrappers and undoes the
escaping (including the line-break normalization) of a rendered output
stream.  Each step consumes at least one character, so fuel equal to the
input length suffices. -/
def unrenderF : Nat → List Char → List Char
  | 0, l => l
  | Nat.succ _, [] => []
  | Nat.succ f, c :: r =>
    if c = '&' then
      match ampTok r with
      | some (e, r2) => e :: unrenderF f r2
      | none => c :: unrenderF f r
    else if c = '<' then
      match ltTok r with
      | some (some e, r2) => e :: unrenderF f r2
      | some (none, r2) => unrenderF f r2
      | none => c :: unrenderF f r
    else c :: unrenderF f r

/-- Strip annotation wrappers and undo the escaping of a rendered output
stream. -/
def unrender (l : List Char) : List Char := unrenderF l.length l

theorem ampTok_length (r : List Char) (e : Char) (r2 : List Char)
    (h : ampTok r = some (e, r2)) : r2.length ≤ r.length := by
  unfold ampTok at h
  split_ifs at h <;>
    · simp only [Option.some.injEq, Prod.mk.injEq] at h
      rcases h with ⟨-, h2⟩
      subst h2
      rw [List.length_drop]
      omega

theorem ltTok_length (r : List Char) (e : Option Char) (r2 : List Char)
    (h : ltTok r = some (e, r2)) : r2.length ≤ r.length := by
  unfold ltTok at h
  split_ifs at h <;>
    · simp only [Option.some.injEq, Prod.mk.injEq] at h
      rcases h with ⟨-, h2⟩
      subst h2
      rw [List.length_drop]
      omega

theorem unrenderF_stable : ∀ f g l, l.length ≤ f → l.length ≤ g →
    unrenderF f l = unrenderF g l := by
  intro f
  induction f with
  | zero =>
    intro g l hf _
    have hnil : l = [] := List.length_eq_zero.mp (by omega)
    subst hnil
    cases g <;> rfl
  | succ f ih =>
    intro g l hf hg
    cases l with
    | nil => cases g <;> rfl
    | cons c r =>
      cases g with
      | zero => simp at hg
      | succ g =>
        simp only [List.length_cons] at hf hg
        simp only [unrenderF]
        by_cases h1 : c = '&'
        · simp only [if_pos h1]
          cases ham : ampTok r with
          | none => simp only [ham]; rw [ih g r (by omega) (by omega)]
          | some pair =>
            rcases pair with ⟨e, r2⟩
            have hlen := ampTok_length r e r2 ham
            simp only [ham]
            rw [ih g r2 (by omega) (by omega)]
        · simp only [if_neg h1]
          by_cases h2 : c = '<'
          · simp only [if_pos h2]
            cases hlt : ltTok r with
            | none => simp only [hlt]; rw [ih g r (by omega) (by omega)]
            | some pair =>
              rcases pair with ⟨e, r2⟩
              have hlen := ltTok_length r e r2 hlt
              cases e with
              | none => simp only [hlt]; rw [ih g r2 (by omega) (by omega)]
              | some e' => simp only [hlt]; rw [ih g r2 (by omega) (by omega)]
          · simp only [if_neg h2]
            rw [ih g r (by omega) (by omega)]

theorem unrenderF_amp (f : Nat) (r : List Char) :
    unrenderF (Nat.succ f) ('&' :: 'a' :: 'm' :: 'p' :: ';' :: r) = '&' :: unrenderF f r := rfl

theorem unrenderF_lt (f : Nat) (r : List Char) :
    unrenderF (Nat.succ f) ('&' :: 'l' :: 't' :: ';' :: r) = '<' :: unrenderF f r := rfl

theorem unrenderF_gt (f : Nat) (r : List Char) :
    unrenderF (Nat.succ f) ('&' :: 'g' :: 't' :: ';' :: r) = '>' :: unrenderF f r := rfl

theorem unrenderF_br (f : Nat) (r : List Char) :
    unrenderF (Nat.succ f) ('<' :: 'b' :: 'r' :: '>' :: r) = '\n' :: unrenderF f r := rfl

theorem unrenderF_close (f : Nat) (r : List Char) :
    unrenderF (Nat.succ f) ("</span>".data ++ r) = unrenderF f r := rfl

theorem unrenderF_open_del (f : Nat) (r : List Char) :
    unrenderF (Nat.succ f) ("<span class=\"diff-deleted\">".data ++ r) = unrenderF f r := rfl

theorem unrenderF_open_ins (f : Nat) (r : List Char) :
    unrenderF (Nat.succ f) ("<span class=\"diff-inserted\">".data ++ r) = unrenderF f r := rfl

theorem unrenderF_plain (f : Nat) (c : Char) (r : List Char) (h1 : c ≠ '&') (h2 : c ≠ '<') :
    unrenderF (Nat.succ f) (c :: r) = c :: unrenderF f r := by
  simp only [unrenderF, if_neg h1, if_neg h2]

theorem unrender_amp (r : List Char) : unrender ("&amp;".data ++ r) = '&' :: unrender r := by
  show unrenderF (Nat.succ (r.length + 4)) ('&' :: 'a' :: 'm' :: 'p' :: ';' :: r) =
    '&' :: unrender r
  rw [unrenderF_amp, unrenderF_stable (r.length + 4) r.length r (by omega) le_rfl]
  rfl

theorem unrender_lt (r : List Char) : unrender ("&lt;".data ++ r) = '<' :: unrender r := by
  show unrenderF (Nat.succ (r.length + 3)) ('&' :: 'l' :: 't' :: ';' :: r) = '<' :: unrender r
  rw [unrenderF_lt, unrenderF_stable (r.length + 3) r.length r (by omega) le_rfl]
  rfl

theorem unrender_gt (r : List Char) : unrender ("&gt;".data ++ r) = '>' :: unrender r := by
  show unrenderF (Nat.succ (r.length + 3)) ('&' :: 'g' :: 't' :: ';' :: r) = '>' :: unrender r
  rw [unrenderF_gt, unrenderF_stable (r.length + 3) r.length r (by omega) le_rfl]
  rfl

theorem unrender_br (r : List Char) : unrender ("<br>".data ++ r) = '\n' :: unrender r := by
  show unrenderF (Nat.succ (r.length + 3)) ('<' :: 'b' :: 'r' :: '>' :: r) = '\n' :: unrender r
  rw [unrenderF_br, unrenderF_stable (r.length + 3) r.length r (by omega) le_rfl]
  rfl

theorem unrender_close (r : List Char) : unrender ("</span>".data ++ r) = unrender r := by
  show unrenderF (Nat.succ (r.length + 6)) ("</span>".data ++ r) = unrender r
  rw [unrenderF_close, unrenderF_stable (r.length + 6) r.length r (by omega) le_rfl]
  rfl

theorem unrender_open_del (r : List Char) :
    unrender ("<span class=\"diff-deleted\">".data ++ r) = unrender r := by
  show unrenderF (Nat.succ (r.length + 26)) ("<span class=\"diff-deleted\">".data ++ r) =
    unrender r
  rw [unrenderF_open_del, unrenderF_stable (r.length + 26) r.length r (by omega) le_rfl]
  rfl

theorem unrender_open_ins (r : List Char) :
    unrender ("<span class=\"diff-inserted\">".data ++ r) = unrender r := by
  show unrenderF (Nat.succ (r.length + 27)) ("<span class=\"diff-inserted\">".data ++ r) =
    unrender r
  rw [unrenderF_open_ins, unrenderF_stable (r.length + 27) r.length r (by omega) le_rfl]
  rfl

theorem unrender_plain (c : Char) (r : List Char) (h1 : c ≠ '&') (h2 : c ≠ '<') :
    unrender (c :: r) = c :: unrender r := by
  show unrenderF (Nat.succ r.length) (c :: r) = c :: unrender r
  rw [unrenderF_plain _ _ _ h1 h2]
  rfl

theorem unrender_nil : unrender [] = [] := rfl

theorem unrender_safeData : ∀ t r, unrender (safeData t ++ r) = t ++ unrender r := by
  intro t
  induction t with
  | nil => intro r; simp [safeData_nil]
  | cons c t ih =>
    intro r
    rw [safeData_cons, List.append_assoc]
    by_cases h1 : c = '&'
    · subst h1
      rw [show escCode '&' = "&amp;".data from rfl, unrender_amp, ih]
      rfl
    · by_cases h2 : c = '<'
      · subst h2
        rw [show escCode '<' = "&lt;".data from rfl, unrender_lt, ih]
        rfl
      · by_cases h3 : c = '>'
        · subst h3
          rw [show escCode '>' = "&gt;".data from rfl, unrender_gt, ih]
          rfl
        · by_cases h4 : c = '\n'
          · subst h4
            rw [show escCode '\n' = "<br>".data from rfl, unrender_br, ih]
            rfl
          · rw [show escCode c = [c] from by simp [escCode, h1, h2, h3, h4],
              List.singleton_append, unrender_plain c _ h1 h2, ih]
            rfl

theorem unrender_opOldHtml (op : Op) (r : List Char) :
    unrender (opOldHtml op ++ r) = opOld op ++ unrender r := by
  rcases op with ⟨tag, t⟩
  cases tag with
  | equal =>
    simp only [opOldHtml, opOld]
    exact unrender_safeData t r
  | delete =>
    simp only [opOldHtml, opOld, spanDeleted]
    rw [List.append_assoc, List.append_assoc, unrender_open_del, unrender_safeData,
      unrender_close]
  | insert =>
    simp only [opOldHtml, opOld]
    rw [List.nil_append, List.nil_append]

theorem unrender_opNewHtml (op : Op) (r : List Char) :
    unrender (opNewHtml op ++ r) = opNew op ++ unrender r := by
  rcases op with ⟨tag, t⟩
  cases tag with
  | equal =>
    simp only [opNewHtml, opNew]
    exact unrender_safeData t r
  | insert =>
    simp only [opNewHtml, opNew, spanInserted]
    rw [List.append_assoc, List.append_assoc, unrender_open_ins, unrender_safeData,
      unrender_close]
  | delete =>
    simp only [opNewHtml, opNew]
    rw [List.nil_append, List.nil_append]

theorem unrender_oldStream (ops : List Op) : unrender (oldStream ops) = oldSide ops := by
  have key : ∀ ops r, unrender (oldStream ops ++ r) = oldSide ops ++ unrender r := by
    intro ops
    induction ops with
    | nil => intro r; simp [oldStream, oldSide]
    | cons op rest ih =>
      intro r
      simp only [oldStream, oldSide, List.append_assoc]
      rw [unrender_opOldHtml, ih, ← List.append_assoc]
  have h := key ops []
  rw [List.append_nil, unrender_nil, List.append_nil] at h
  exact h

theorem unrender_newStream (ops : List Op) : unrender (newStream ops) = newSide ops := by
  have key : ∀ ops r, unrender (newStream ops ++ r) = newSide ops ++ unrender r := by
    intro ops
    induction ops with
    | nil => intro r; simp [newStream, newSide]
    | cons op rest ih =>
      intro r
      simp only [newStream, newSide, List.append_assoc]
      rw [unrender_opNewHtml, ih, ← List.append_assoc]
  have h := key ops []
  rw [List.append_nil, unrender_nil, List.append_nil] at h
  exact h

/-! ## The request layer: `get_synopsis_api` -/

/-- A paragraph row as used by the synopsis endpoint: the German content
(`content_de`, NOT NULL) and the optional Chinese content (`content_zh` may be
NULL, modelled as `Option`). -/
structure ParagraphRow where
  content_de : List Char
  content_zh : Option (List Char)

/-- `paragraph_num.replace('%20', ' ')` from the source: replace each
(leftmost, non-overlapping) occurrence of `%20` by a space. -/
def decodeSpaces : List Char → List Char
  | '%' :: '2' :: '0' :: r => ' ' :: decodeSpaces r
  | c :: r => c :: decodeSpaces r
  | [] => []

/-- The body of a 200 response of the synopsis endpoint: the law name, decoded
paragraph number, the two version dates and the four annotated HTML strings
(old/new × German/Chinese), mirroring the `jsonify` dictionary in the
source. -/
structure SynopsisBody (D : Type) where
  law : List Char
  paragraph : List Char
  v1_date : D
  v2_date : D
  v1_content_html_de : List Char
  v1_content_html_zh : List Char
  v2_content_html_de : List Char
  v2_content_html_zh : List Char

/-- The three responses the synopsis endpoint can produce: the 400 bad-date
error, the 404 not-found error, and a 200 payload. -/
inductive SynopsisResponse (D : Type) where
  | badRequest : SynopsisResponse D
  | notFound : SynopsisResponse D
  | ok : SynopsisBody D → SynopsisResponse D

/-- HTTP status code of each response. -/
def statusCode {D : Type} : SynopsisResponse D → Nat
  | SynopsisResponse.badRequest => 400
  | SynopsisResponse.notFound => 404
  | SynopsisResponse.ok _ => 200

/-- `get_synopsis_api`, translated from the source.  The external
collaborators are parameters: `fromisoformat` models Python's
`date.fromisoformat` (`none` models the `ValueError` caught by the handler,
which produces the 400 response), and `query` models the SQLAlchemy
`db.session.query(...).first()` lookup by (law short name, version date,
paragraph number), with `none` for a missing row (`if not p1 or not p2`
produces the 404 response).  On success the handler renders the German pair
and the Chinese pair (`content_zh or ""` becomes `Option.getD` with the empty
text) and assembles the response body. -/
def get_synopsis_api {D : Type} (fromisoformat : List Char → Option D)
    (query : List Char → D → List Char → Option ParagraphRow)
    (law_short_name v1_date_str v2_date_str paragraph_num : List Char) :
    SynopsisResponse D :=
  let paragraph_num_decoded := decodeSpaces paragraph_num
  match fromisoformat v1_date_str, fromisoformat v2_date_str with
  | some v1_date, some v2_date =>
    match query law_short_name v1_date paragraph_num_decoded,
        query law_short_name v2_date paragraph_num_decoded with
    | some p1, some p2 =>
      let synopsis_data_de := generate_synopsis_html p1.content_de p2.content_de
      let synopsis_data_zh :=
        generate_synopsis_html (p1.content_zh.getD []) (p2.content_zh.getD [])
      SynopsisResponse.ok
        ⟨law_short_name, paragraph_num_decoded, v1_date, v2_date,
          synopsis_data_de.old_version_html, synopsis_data_zh.old_version_html,
          synopsis_data_de.new_version_html, synopsis_data_zh.new_version_html⟩
    | _, _ => SynopsisResponse.notFound
  | _, _ => SynopsisResponse.badRequest

/-! ## `editDist` is the true minimum edit cost over all scripts -/

theorem editDist_step_bounds : ∀ n u v, u.length + v.length ≤ n → ∀ c : Char,
    (editDist (c :: u) v ≤ 1 + editDist u v) ∧
    (editDist u (c :: v) ≤ 1 + editDist u v) ∧
    (editDist u v ≤ 1 + editDist (c :: u) v) ∧
    (editDist u v ≤ 1 + editDist u (c :: v)) := by
  intro n
  induction n with
  | zero =>
    intro u v hn c
    have hu : u = [] := List.length_eq_zero.mp (by omega)
    have hv : v = [] := List.length_eq_zero.mp (by omega)
    subst hu; subst hv
    simp [editDist_nil_left, editDist_nil_right]
  | succ n ih =>
    intro u v hn c
    refine ⟨?_, ?_, ?_, ?_⟩
    · cases v with
      | nil =>
        rw [editDist_nil_right, editDist_nil_right]
        simp only [List.length_cons]
        omega
      | cons y v2 =>
        simp only [List.length_cons] at hn
        rw [editDist_cons_cons]
        by_cases hcy : c = y
        · rw [if_pos hcy]
          exact (ih u v2 (by omega) y).2.2.2
        · rw [if_neg hcy]
          have h := min_le_left (editDist u (y :: v2)) (editDist (c :: u) v2)
          omega
    · cases u with
      | nil =>
        rw [editDist_nil_left, editDist_nil_left]
        simp only [List.length_cons]
        omega
      | cons x u2 =>
        simp only [List.length_cons] at hn
        rw [editDist_cons_cons]
        by_cases hxc : x = c
        · rw [if_pos hxc]
          exact (ih u2 v (by omega) x).2.2.1
        · rw [if_neg hxc]
          have h := min_le_right (editDist u2 (c :: v)) (editDist (x :: u2) v)
          omega
    · cases v with
      | nil =>
        rw [editDist_nil_right, editDist_nil_right]
        simp only [List.length_cons]
        omega
      | cons y v2 =>
        simp only [List.length_cons] at hn
        rw [editDist_cons_cons]
        by_cases hcy : c = y
        · rw [if_pos hcy]
          exact (ih u v2 (by omega) y).2.1
        · rw [if_neg hcy]
          have h1 := (ih u v2 (by omega) c).2.2.1
          have h2 := (ih u v2 (by omega) y).2.1
          rcases min_cases (editDist u (y :: v2)) (editDist (c :: u) v2) with ⟨h, _⟩ | ⟨h, _⟩ <;>
            rw [h] <;> omega
    · cases u with
      | nil =>
        rw [editDist_nil_left, editDist_nil_left]
        simp only [List.length_cons]
        omega
      | cons x u2 =>
        simp only [List.length_cons] at hn
        rw [editDist_cons_cons]
        by_cases hxc : x = c
        · rw [if_pos hxc]
          exact (ih u2 v (by omega) x).1
        · rw [if_neg hxc]
          have h1 := (ih u2 v (by omega) x).1
          have h2 := (ih u2 v (by omega) c).2.2.2
          rcases min_cases (editDist u2 (c :: v)) (editDist (x :: u2) v) with ⟨h, _⟩ | ⟨h, _⟩ <;>
            rw [h] <;> omega

theorem editDist_cons_left_le (c : Char) (u v : List Char) :
    editDist (c :: u) v ≤ 1 + editDist u v :=
  (editDist_step_bounds (u.length + v.length) u v le_rfl c).1

theorem editDist_cons_right_le (c : Char) (u v : List Char) :
    editDist u (c :: v) ≤ 1 + editDist u v :=
  (editDist_step_bounds (u.length + v.length) u v le_rfl c).2.1

theorem editDist_append_left_le : ∀ t u v : List Char,
    editDist (t ++ u) v ≤ t.length + editDist u v := by
  intro t
  induction t with
  | nil => intro u v; simp
  | cons c t2 ih =>
    intro u v
    have h1 := editDist_cons_left_le c (t2 ++ u) v
    have h2 := ih u v
    simp only [List.cons_append, List.length_cons]
    omega

theorem editDist_append_right_le : ∀ t u v : List Char,
    editDist u (t ++ v) ≤ t.length + editDist u v := by
  intro t
  induction t with
  | nil => intro u v; simp
  | cons c t2 ih =>
    intro u v
    have h1 := editDist_cons_right_le c u (t2 ++ v)
    have h2 := ih u v
    simp only [List.cons_append, List.length_cons]
    omega

theorem editDist_append_both : ∀ t u v : List Char, editDist (t ++ u) (t ++ v) = editDist u v := by
  intro t
  induction t with
  | nil => intro u v; simp
  | cons c t2 ih =>
    intro u v
    simp only [List.cons_append]
    rw [editDist_cons_cons, if_pos rfl, ih]

/-- The edit distance is a lower bound on the edited-character count of every
edit script, whatever its shape: `editDist` is the true minimum edit cost over
all scripts reconstructing a given pair of texts (together with
`editedChars_diff_main`, the raw script of the engine attains it). -/
theorem editDist_le_editedChars (s : List Op) :
    editDist (oldSide s) (newSide s) ≤ editedChars s := by
  induction s with
  | nil => simp [oldSide, newSide, editedChars, editDist_nil_left]
  | cons op rest ih =>
    rcases op with ⟨tag, t⟩
    cases tag with
    | equal =>
      simp only [oldSide, newSide, opOld, opNew]
      simp [editedChars]
      rw [editDist_append_both]
      exact ih
    | delete =>
      simp only [oldSide, newSide, opOld, opNew, List.nil_append]
      simp [editedChars]
      have h1 := editDist_append_left_le t (oldSide rest) (newSide rest)
      omega
    | insert =>
      simp only [oldSide, newSide, opOld, opNew, List.nil_append]
      simp [editedChars]
      have h1 := editDist_append_right_le t (oldSide rest) (newSide rest)
      omega

/-- The engine's raw script is optimal: any script with the same old side and
new side costs at least as many edited characters. -/
theorem diff_main_minimal (xs ys : List Char) (s : List Op)
    (h1 : oldSide s = xs) (h2 : newSide s = ys) :
    editedChars (diff_main xs ys) ≤ editedChars s := by
  rw [editedChars_diff_main, ← h1, ← h2]
  exact editDist_le_editedChars s

/-- `diff_main_minimal` at a concrete script. -/
theorem diff_main_minimal_witness :
    editedChars (diff_main "ab".data "b".data) ≤
      editedChars [⟨Tag.delete, "ab".data⟩, ⟨Tag.insert, "b".data⟩] :=
  diff_main_minimal "ab".data "b".data
    [⟨Tag.delete, "ab".data⟩, ⟨Tag.insert, "b".data⟩] (by decide) (by decide)

/-! ## Claim theorems -/

/-- C1: for every pair of texts, concatenating the old-side contributions
(Equal and Delete spans, in order) of the edit script computed by the diff
engine (diff_main followed by diff_cleanupSemantic, as invoked in
generate_synopsis_html) reproduces the old text exactly, and concatenating the
new-side contributions (Equal and Insert spans, in order) reproduces the new
text exactly. -/
theorem c1_reconstruction (old_text new_text : List Char) :
    oldSide (diff_cleanupSemantic (diff_main old_text new_text)) = old_text ∧
    newSide (diff_cleanupSemantic (diff_main old_text new_text)) = new_text := by
  constructor
  · rw [oldSide_cleanup, oldSide_diff_main]
  · rw [newSide_cleanup, newSide_diff_main]

/-- C2: the renderer processes the operations in order and routes each one by
its tag: the two output streams are exactly the in-order concatenations of the
per-operation contributions, where an Equal operation's escaped text goes
unmodified to both streams, a Delete operation's escaped text is wrapped in
the "deleted" annotation and goes only to the old stream, and an Insert
operation's escaped text is wrapped in the "inserted" annotation and goes only
to the new stream. -/
theorem c2_renderer_routing (ops : List Op) :
    renderGo [] [] ops = ⟨oldStream ops, newStream ops⟩ ∧
    (∀ t, opOldHtml ⟨Tag.equal, t⟩ = safeData t ∧ opNewHtml ⟨Tag.equal, t⟩ = safeData t) ∧
    (∀ t, opOldHtml ⟨Tag.delete, t⟩ = spanDeleted (safeData t) ∧
      opNewHtml ⟨Tag.delete, t⟩ = []) ∧
    (∀ t, opOldHtml ⟨Tag.insert, t⟩ = [] ∧
      opNewHtml ⟨Tag.insert, t⟩ = spanInserted (safeData t)) :=
  ⟨renderGo_streams ops, fun _ => ⟨rfl, rfl⟩, fun _ => ⟨rfl, rfl⟩, fun _ => ⟨rfl, rfl⟩⟩

/-- C3: for every pair of texts (including texts containing `<`, `>`, `&`),
stripping the annotation wrappers from the two rendered output strings and
undoing the escaping (including the line-break normalization) yields exactly
the original old text and the original new text. -/
theorem c3_escaping_round_trip (old_text new_text : List Char) :
    unrender ((generate_synopsis_html old_text new_text).old_version_html) = old_text ∧
    unrender ((generate_synopsis_html old_text new_text).new_version_html) = new_text := by
  constructor
  · show unrender
      ((renderGo [] [] (diff_cleanupSemantic (diff_main old_text new_text))).old_version_html) =
      old_text
    rw [renderGo_streams]
    show unrender (oldStream (diff_cleanupSemantic (diff_main old_text new_text))) = old_text
    rw [unrender_oldStream, oldSide_cleanup, oldSide_diff_main]
  · show unrender
      ((renderGo [] [] (diff_cleanupSemantic (diff_main old_text new_text))).new_version_html) =
      new_text
    rw [renderGo_streams]
    show unrender (newStream (diff_cleanupSemantic (diff_main old_text new_text))) = new_text
    rw [unrender_newStream, newSide_cleanup, newSide_diff_main]

/-- C4: for every pair of input texts, no two consecutive operations of the
edit script produced after the semantic cleanup pass carry the same tag. -/
theorem c4_no_same_tag_adjacency (old_text new_text : List Char) :
    List.Chain' (fun a b : Op => a.tag ≠ b.tag)
      (diff_cleanupSemantic (diff_main old_text new_text)) :=
  chain_cleanup (diff_main old_text new_text)

/-- C5 (counterexample): on the spec's own worked example
`("the cat sat", "the cat ran")` the cleaned script carries 6 deleted+inserted
characters while the character-level edit distance is 4, so the total number
of characters carried by Delete and Insert operations after cleanup does
exceed the edit distance. -/
theorem c5_counterexample :
    ¬ (editedChars (diff_cleanupSemantic (diff_main "the cat sat".data "the cat ran".data)) ≤
        editDist "the cat sat".data "the cat ran".data) := by decide

/-- C5 (amended): before cleanup the script's Delete+Insert operations carry
exactly the character-level edit distance many characters, and after cleanup
the total NUMBER of Delete and Insert operations never exceeds the
character-level edit distance (cleanup may merge operations and may increase
the total edited-character count, but never the operation count beyond the
edit distance). -/
theorem c5_amended_minimality (old_text new_text : List Char) :
    editedChars (diff_main old_text new_text) = editDist old_text new_text ∧
    numEditOps (diff_cleanupSemantic (diff_main old_text new_text)) ≤
      editDist old_text new_text :=
  ⟨editedChars_diff_main old_text new_text, numEditOps_cleanup_le_editDist old_text new_text⟩

/-- C6: for every non-empty text `s` the diff engine applied to `(s, s)`
yields a script of exactly one Equal operation spanning all of `s`; rendering
the unchanged pair produces two outputs equal to the escaped text with no
annotations; and the cleaned script is never empty unless both inputs are
empty. -/
theorem c6_identity (s : List Char) (h : s ≠ []) :
    diff_cleanupSemantic (diff_main s s) = [⟨Tag.equal, s⟩] ∧
    generate_synopsis_html s s = ⟨safeData s, safeData s⟩ ∧
    (∀ o n : List Char, diff_cleanupSemantic (diff_main o n) = [] → o = [] ∧ n = []) := by
  refine ⟨cleanup_diff_main_self s h, ?_, fun o n hh => cleanup_diff_main_eq_nil o n hh⟩
  show renderGo [] [] (diff_cleanupSemantic (diff_main s s)) = _
  rw [cleanup_diff_main_self s h, renderGo_streams]
  simp [oldStream, newStream, opOldHtml, opNewHtml]

/-- C6 witness: the identity property at the concrete non-empty text `"a"`. -/
theorem c6_identity_witness :
    ("a".data ≠ []) ∧
    diff_cleanupSemantic (diff_main "a".data "a".data) = [⟨Tag.equal, "a".data⟩] :=
  ⟨by decide, (c6_identity "a".data (by decide)).1⟩

/-- C7: comparing two empty strings yields an empty edit script (both before
and after cleanup), and rendering an empty edit script yields two empty
output strings. -/
theorem c7_emptiness :
    diff_main [] [] = [] ∧ diff_cleanupSemantic (diff_main [] []) = [] ∧
    renderGo [] [] [] = ⟨[], []⟩ :=
  ⟨rfl, rfl, rfl⟩

/-- C8 (counterexample): the renderer wraps deletions in
`<span class="diff-deleted">...</span>`, not in `<del>...</del>`, so on
`("the cat sat", "the cat ran")` the old output is not
`the cat <del>sat</del>`. -/
theorem c8_counterexample :
    (generate_synopsis_html "the cat sat".data "the cat ran".data).old_version_html ≠
      "the cat <del>sat</del>".data := by decide

/-- C8 (amended): on `("the cat sat", "the cat ran")` the cleaned script is
Equal("the cat "), Delete("sat"), Insert("ran") (word-aligned after cleanup),
and rendering yields the old output
`the cat <span class="diff-deleted">sat</span>` and the new output
`the cat <span class="diff-inserted">ran</span>`. -/
theorem c8_amended :
    diff_cleanupSemantic (diff_main "the cat sat".data "the cat ran".data) =
      [⟨Tag.equal, "the cat ".data⟩, ⟨Tag.delete, "sat".data⟩, ⟨Tag.insert, "ran".data⟩] ∧
    generate_synopsis_html "the cat sat".data "the cat ran".data =
      ⟨"the cat <span class=\"diff-deleted\">sat</span>".data,
        "the cat <span class=\"diff-inserted\">ran</span>".data⟩ :=
  ⟨by decide, by decide⟩

/-- C10: the per-fragment escape-and-normalize step (`&` then `<` then `>`
then newline) is injective; in particular a literal `<br>` in the input is
escaped to `&lt;br&gt;`, a newline becomes the `<br>` marker, and the two can
never collide, which is what makes the round-trip unescaping well-defined. -/
theorem c10_escape_injective :
    (∀ s t : List Char, safeData s = safeData t → s = t) ∧
    safeData "<br>".data = "&lt;br&gt;".data ∧
    safeData ['\n'] = "<br>".data ∧
    "&lt;br&gt;".data ≠ "<br>".data := by
  refine ⟨?_, by decide, by decide, by decide⟩
  intro s t h
  have hs : unrender (safeData s) = s := by
    have h' := unrender_safeData s []
    rwa [List.append_nil, unrender_nil, List.append_nil] at h'
  have ht : unrender (safeData t) = t := by
    have h' := unrender_safeData t []
    rwa [List.append_nil, unrender_nil, List.append_nil] at h'
  rw [← hs, ← ht, h]

/-- C10 witness: the injectivity applied at a concrete input. -/
theorem c10_escape_injective_witness : "a&b".data = "a&b".data :=
  c10_escape_injective.1 "a&b".data "a&b".data rfl

/-- C9: for every synopsis request, the handler returns the 400 bad-input
response when either supplied date string fails to parse as an ISO date, the
distinct 404 not-found response when both dates parse but either of the two
(law, version date, paragraph) lookups finds no record, and produces a 200
payload only when both dates parse and both lookups succeed — so a not-found
lookup is never treated as an empty-but-valid comparison. -/
theorem c9_request_layer_errors {D : Type} (fromisoformat : List Char → Option D)
    (query : List Char → D → List Char → Option ParagraphRow)
    (law v1s v2s pnum : List Char) :
    ((fromisoformat v1s = none ∨ fromisoformat v2s = none) →
      get_synopsis_api fromisoformat query law v1s v2s pnum =
        SynopsisResponse.badRequest) ∧
    (∀ v1 v2, fromisoformat v1s = some v1 → fromisoformat v2s = some v2 →
      (query law v1 (decodeSpaces pnum) = none ∨
        query law v2 (decodeSpaces pnum) = none) →
      get_synopsis_api fromisoformat query law v1s v2s pnum =
        SynopsisResponse.notFound) ∧
    (∀ body, get_synopsis_api fromisoformat query law v1s v2s pnum =
        SynopsisResponse.ok body →
      ∃ v1 v2 p1 p2, fromisoformat v1s = some v1 ∧ fromisoformat v2s = some v2 ∧
        query law v1 (decodeSpaces pnum) = some p1 ∧
        query law v2 (decodeSpaces pnum) = some p2 ∧
        body = ⟨law, decodeSpaces pnum, v1, v2,
          (generate_synopsis_html p1.content_de p2.content_de).old_version_html,
          (generate_synopsis_html (p1.content_zh.getD [])
            (p2.content_zh.getD [])).old_version_html,
          (generate_synopsis_html p1.content_de p2.content_de).new_version_html,
          (generate_synopsis_html (p1.content_zh.getD [])
            (p2.content_zh.getD [])).new_version_html⟩) ∧
    statusCode (SynopsisResponse.badRequest : SynopsisResponse D) = 400 ∧
    statusCode (SynopsisResponse.notFound : SynopsisResponse D) = 404 := by
  refine ⟨?_, ?_, ?_, rfl, rfl⟩
  · intro h
    rcases h with h | h
    · cases hv2 : fromisoformat v2s with
      | none => simp [get_synopsis_api, h, hv2]
      | some v2 => simp [get_synopsis_api, h, hv2]
    · cases hv1 : fromisoformat v1s with
      | none => simp [get_synopsis_api, hv1, h]
      | some v1 => simp [get_synopsis_api, hv1, h]
  · intro v1 v2 h1 h2 hq
    rcases hq with hq | hq
    · cases hq2 : query law v2 (decodeSpaces pnum) with
      | none => simp [get_synopsis_api, h1, h2, hq, hq2]
      | some p2 => simp [get_synopsis_api, h1, h2, hq, hq2]
    · cases hq1 : query law v1 (decodeSpaces pnum) with
      | none => simp [get_synopsis_api, h1, h2, hq1, hq]
      | some p1 => simp [get_synopsis_api, h1, h2, hq1, hq]
  · intro body h
    cases hv1 : fromisoformat v1s with
    | none =>
      rw [show get_synopsis_api fromisoformat query law v1s v2s pnum =
          SynopsisResponse.badRequest from by
        cases hv2 : fromisoformat v2s <;> simp [get_synopsis_api, hv1, hv2]] at h
      exact absurd h (by simp)
    | some v1 =>
      cases hv2 : fromisoformat v2s with
      | none =>
        rw [show get_synopsis_api fromisoformat query law v1s v2s pnum =
            SynopsisResponse.badRequest from by simp [get_synopsis_api, hv1, hv2]] at h
        exact absurd h (by simp)
      | some v2 =>
        cases hq1 : query law v1 (decodeSpaces pnum) with
        | none =>
          rw [show get_synopsis_api fromisoformat query law v1s v2s pnum =
              SynopsisResponse.notFound from by
            cases hq2 : query law v2 (decodeSpaces pnum) <;>
              simp [get_synopsis_api, hv1, hv2, hq1, hq2]] at h
          exact absurd h (by simp)
        | some p1 =>
          cases hq2 : query law v2 (decodeSpaces pnum) with
          | none =>
            rw [show get_synopsis_api fromisoformat query law v1s v2s pnum =
                SynopsisResponse.notFound from by
              simp [get_synopsis_api, hv1, hv2, hq1, hq2]] at h
            exact absurd h (by simp)
          | some p2 =>
            refine ⟨v1, v2, p1, p2, rfl, rfl, hq1, hq2, ?_⟩
            rw [show get_synopsis_api fromisoformat query law v1s v2s pnum =
                SynopsisResponse.ok
                  ⟨law, decodeSpaces pnum, v1, v2,
                    (generate_synopsis_html p1.content_de p2.content_de).old_version_html,
                    (generate_synopsis_html (p1.content_zh.getD [])
                      (p2.content_zh.getD [])).old_version_html,
                    (generate_synopsis_html p1.content_de p2.content_de).new_version_html,
                    (generate_synopsis_html (p1.content_zh.getD [])
                      (p2.content_zh.getD [])).new_version_html⟩ from by
              simp [get_synopsis_api, hv1, hv2, hq1, hq2]] at h
            cases h
            rfl

/-- C9 witness: with a parser that rejects every date string, the handler
answers with the 400 response. -/
theorem c9_request_layer_errors_witness :
    get_synopsis_api (fun _ => (none : Option Nat)) (fun _ _ _ => none) [] [] [] [] =
      SynopsisResponse.badRequest :=
  (c9_request_layer_errors (fun _ => (none : Option Nat)) (fun _ _ _ => none)
    [] [] [] []).1 (Or.inl rfl)
